import Mathlib

/-!
Verification of the stroke-to-raster pipeline of `MakeGestureDataset`
(`src/main.rs`).

The embedding is exact: the `f32` coordinates of the source are modelled
by rationals (`ℚ`), so all coordinate arithmetic is the ideal arithmetic
the algorithm intends; floating-point rounding is not modelled.  Machine
integers (`u32`) are modelled by `ℕ`, and the saturating Rust cast
`f32 as u32` by `Int.toNat ∘ Int.floor` (the two agree on every rational:
for a non-negative value truncation is the floor, and every negative
value saturates to `0`).

* `Pos2`, `Stroke`, `Sample` mirror `egui::Pos2` and
  `Vec<Vec<egui::Pos2>>` (the `drawing` field).
* `rawBounds` / `computeBounds` mirror the bounding-box loop of
  `save_image` (lines 185-199), including the `1e32` sentinels and the
  final `max_x += 1.0; max_y += 1.0`.
* `pixelSteps`, `interpPoint`, `normX`/`normY`, `rasterPixel` mirror the
  per-segment drawing loop (lines 206-219).
* `save_image` mirrors the whole rasterization as a fold over an
  `Image`; `plottedPixels` collects (as signed integers, before the
  saturating cast) every pixel index the loop computes.
* `clearDrawing`, `ensureOpenStroke`, `begin_or_continue`, `end_stroke`,
  `snapshot` mirror the stroke-collection logic of `update`
  (lines 135-167).
-/

/-- A 2D point, mirroring `egui::Pos2` with exact coordinates. -/
@[ext]
structure Pos2 where
  x : ℚ
  y : ℚ
deriving DecidableEq, Repr

/-- One stroke: the path traced during one continuous drag. -/
abbrev Stroke := List Pos2

/-- A sample: the ordered strokes of one gesture (`drawing: Vec<Vec<Pos2>>`). -/
abbrev Sample := List Stroke

/-- The bounding-box accumulator of `save_image`. -/
structure Bounds where
  min_x : ℚ
  max_x : ℚ
  min_y : ℚ
  max_y : ℚ
deriving DecidableEq, Repr

/-- `min_x = pt.x.min(min_x); ...; max_y = pt.y.max(max_y)` (lines 192-195). -/
def updateBounds (b : Bounds) (pt : Pos2) : Bounds :=
  { min_x := min pt.x b.min_x
    max_x := max pt.x b.max_x
    min_y := min pt.y b.min_y
    max_y := max pt.y b.max_y }

/-- The sentinel initialisation `min = 1e32, max = -1e32` (lines 185-188). -/
def initBounds : Bounds :=
  { min_x := 10 ^ 32, max_x := -(10 ^ 32), min_y := 10 ^ 32, max_y := -(10 ^ 32) }

/-- The bounding-box double loop of `save_image` (lines 189-197): strokes with
fewer than 2 points are skipped. -/
def rawBounds (lines : Sample) : Bounds :=
  lines.foldl (fun b line => if line.length < 2 then b else line.foldl updateBounds b)
    initBounds

/-- The bounds actually used for normalization: `max_x += 1.0; max_y += 1.0`
(lines 198-199). -/
def computeBounds (lines : Sample) : Bounds :=
  let b := rawBounds lines
  { b with max_x := b.max_x + 1, max_y := b.max_y + 1 }

/-- `let pixel_steps = dx.abs().max(dy.abs()).ceil() as u32` (line 209). -/
def pixelSteps (a b : Pos2) : ℕ :=
  (⌈max |b.x - a.x| |b.y - a.y|⌉).toNat

/-- The interpolated raw point of one step:
`x = pt_a.x + (dx*step as f32 / pixel_steps as f32)` (lines 212-213). -/
def interpPoint (a b : Pos2) (step steps : ℕ) : Pos2 :=
  { x := a.x + (b.x - a.x) * (step : ℚ) / (steps : ℚ)
    y := a.y + (b.y - a.y) * (step : ℚ) / (steps : ℚ) }

/-- `x = (x - min_x) / (max_x - min_x)` (line 215). -/
def normX (bd : Bounds) (p : Pos2) : ℚ := (p.x - bd.min_x) / (bd.max_x - bd.min_x)

/-- `y = (y - min_y) / (max_y - min_y)` (line 216). -/
def normY (bd : Bounds) (p : Pos2) : ℚ := (p.y - bd.min_y) / (bd.max_y - bd.min_y)

/-- The pixel index computed on line 218, kept as signed integers (the value of
the truncation before Rust's saturating `as u32` cast). -/
def rasterPixel (bd : Bounds) (size : ℕ × ℕ) (p : Pos2) : ℤ × ℤ :=
  (⌊normX bd p * (size.1 : ℚ)⌋, ⌊normY bd p * (size.2 : ℚ)⌋)

/-- All pixel indices computed for one segment `(pt_a, pt_b)`: one per
`step in 0..pixel_steps` (lines 211-218). -/
def segmentPixels (bd : Bounds) (size : ℕ × ℕ) (a b : Pos2) : List (ℤ × ℤ) :=
  (List.range (pixelSteps a b)).map
    (fun step => rasterPixel bd size (interpPoint a b step (pixelSteps a b)))

/-- Every pixel index `save_image` computes for a sample, in plot order. -/
def plottedPixels (lines : Sample) (size : ℕ × ℕ) : List (ℤ × ℤ) :=
  (lines.filter (fun line => !decide (line.length < 2))).flatMap
    (fun line => (line.zip line.tail).flatMap
      (fun ab => segmentPixels (computeBounds lines) size ab.1 ab.2))

/-- The output image: a `width × height` grid of background/foreground flags
(`RgbImage` restricted to the two colours the program uses). -/
structure Image where
  width : ℕ
  height : ℕ
  pix : ℕ → ℕ → Bool

/-- `image::RgbImage::new(w, h)`: all pixels background. -/
def Image.new (w h : ℕ) : Image :=
  { width := w, height := h, pix := fun _ _ => false }

/-- `*img.get_pixel_mut(u, v) = Rgb::from([255,255,255])` (lines 218-219). -/
def Image.set (img : Image) (u v : ℕ) : Image :=
  { img with pix := fun i j => if i = u ∧ j = v then true else img.pix i j }

/-- Rust's saturating `f32 as u32` cast, on exact values. -/
def f32ToU32 (q : ℚ) : ℕ := (⌊q⌋ : ℤ).toNat

/-- Drawing one segment: the inner `for step in 0..pixel_steps` loop
(lines 211-220). -/
def drawSegment (bd : Bounds) (size : ℕ × ℕ) (a b : Pos2) (img : Image) : Image :=
  (List.range (pixelSteps a b)).foldl
    (fun im step =>
      im.set (f32ToU32 (normX bd (interpPoint a b step (pixelSteps a b)) * (size.1 : ℚ)))
        (f32ToU32 (normY bd (interpPoint a b step (pixelSteps a b)) * (size.2 : ℚ))))
    img

/-- Drawing one stroke: `for (pt_a, pt_b) in line.iter().zip(line.iter().skip(1))`
(line 206). -/
def drawLine (bd : Bounds) (size : ℕ × ℕ) (line : Stroke) (img : Image) : Image :=
  (line.zip line.tail).foldl (fun im ab => drawSegment bd size ab.1 ab.2 im) img

/-- The rasterization performed by `save_image` (lines 182-222), without the
file I/O: bounding box, fresh image, then the drawing loops (degenerate
strokes skipped). -/
def save_image (lines : Sample) (size : ℕ × ℕ) : Image :=
  lines.foldl
    (fun im line =>
      if line.length < 2 then im else drawLine (computeBounds lines) size line im)
    (Image.new size.1 size.2)

/-- A pixel index is a valid position of a `w × h` image. -/
def inBounds (size : ℕ × ℕ) (p : ℤ × ℤ) : Prop :=
  0 ≤ p.1 ∧ p.1 < (size.1 : ℤ) ∧ 0 ≤ p.2 ∧ p.2 < (size.2 : ℤ)

instance (size : ℕ × ℕ) (p : ℤ × ℤ) : Decidable (inBounds size p) :=
  inferInstanceAs (Decidable (0 ≤ p.1 ∧ p.1 < (size.1 : ℤ) ∧ 0 ≤ p.2 ∧ p.2 < (size.2 : ℤ)))

/-! ## The stroke collector (the drawing logic of `update`, lines 135-167) -/

/-- `drawing.clear()` (lines 136 and 141). -/
def clearDrawing (_d : Sample) : Sample := []

/-- `if drawing.is_empty() { drawing.push(vec![]); }` (lines 152-154): ensure
an open stroke exists before any pointer handling. -/
def ensureOpenStroke (d : Sample) : Sample :=
  if d.isEmpty then d ++ [[]] else d

/-- The open stroke: `drawing.last_mut().unwrap()` (line 156). -/
def openStroke (d : Sample) : Stroke := d.getLast?.getD []

/-- The clear operation: `drawing.clear()` followed by the ensure-open-stroke
step the next canvas pass performs (lines 135-137 with 152-154). -/
def clear (d : Sample) : Sample := ensureOpenStroke (clearDrawing d)

/-- Pointer pressed at `p` (lines 158-163): append `p` to the open stroke only
if it differs from the stroke's last point; the returned flag is
`response.mark_changed()` — whether a point was appended. -/
def begin_or_continue (d : Sample) (p : Pos2) : Sample × Bool :=
  if (openStroke (ensureOpenStroke d)).getLast? ≠ some p then
    ((ensureOpenStroke d).dropLast ++ [openStroke (ensureOpenStroke d) ++ [p]], true)
  else (ensureOpenStroke d, false)

/-- Pointer released (lines 164-167): if the open stroke is non-empty, push a
fresh empty stroke; otherwise nothing happens. -/
def end_stroke (d : Sample) : Sample :=
  if (openStroke (ensureOpenStroke d)).isEmpty then ensureOpenStroke d
  else ensureOpenStroke d ++ [[]]

/-- Read-only access to the strokes (the render loop of lines 170-175 reads
`drawing` as is). -/
def snapshot (d : Sample) : Sample := d

/-! ## Basic collector lemmas -/

theorem ensureOpenStroke_ne_nil (d : Sample) : ensureOpenStroke d ≠ [] := by
  unfold ensureOpenStroke
  cases d with
  | nil => simp
  | cons a l => simp

theorem ensureOpenStroke_of_ne_nil {d : Sample} (h : d ≠ []) :
    ensureOpenStroke d = d := by
  unfold ensureOpenStroke
  simp [List.isEmpty_iff, h]

/-- C7: after `clear`, a snapshot holds exactly one stroke and it is empty. -/
theorem snapshot_clear (d : Sample) : snapshot (clear d) = [[]] := rfl

/-- **C7**: for every collector state, `clear` resets the sample to exactly one
empty open stroke: the snapshot after `clear` has exactly one stroke, and that
stroke is empty. -/
theorem clear_resets_to_single_empty_stroke (d : Sample) :
    (snapshot (clear d)).length = 1 ∧ ∀ s ∈ snapshot (clear d), s = [] := by
  refine ⟨rfl, ?_⟩
  intro s hs
  rw [snapshot_clear] at hs
  simpa using hs

/-- Witness for C7 at a concrete state. -/
theorem clear_resets_to_single_empty_stroke_witness :
    (snapshot (clear [[⟨1, 2⟩], []])).length = 1 ∧
      ∀ s ∈ snapshot (clear [[⟨1, 2⟩], []]), s = [] :=
  clear_resets_to_single_empty_stroke [[⟨1, 2⟩], []]

theorem openStroke_concat (d : Sample) (s : Stroke) : openStroke (d ++ [s]) = s := by
  simp [openStroke, List.getLast?_concat]

/-- **C8**: `begin_or_continue` appends `p` exactly when the open stroke's last
point differs from `p`, the returned flag reports whether a point was appended,
and a second call with the identical point appends nothing and changes
nothing. -/
theorem begin_or_continue_spec (d : Sample) (p : Pos2) :
    ((begin_or_continue d p).2 = true ↔ (openStroke (ensureOpenStroke d)).getLast? ≠ some p) ∧
    ((begin_or_continue d p).2 = true →
      openStroke (begin_or_continue d p).1 = openStroke (ensureOpenStroke d) ++ [p] ∧
      (begin_or_continue d p).1.dropLast = (ensureOpenStroke d).dropLast) ∧
    ((begin_or_continue d p).2 = false → (begin_or_continue d p).1 = ensureOpenStroke d) ∧
    begin_or_continue (begin_or_continue d p).1 p = ((begin_or_continue d p).1, false) := by
  by_cases h : (openStroke (ensureOpenStroke d)).getLast? = some p
  · have e1 : begin_or_continue d p = (ensureOpenStroke d, false) := by
      unfold begin_or_continue
      simp [h]
    rw [e1]
    refine ⟨by simp [h], by simp, fun _ => rfl, ?_⟩
    unfold begin_or_continue
    rw [ensureOpenStroke_of_ne_nil (ensureOpenStroke_ne_nil d)]
    simp [h]
  · have e1 : begin_or_continue d p =
        ((ensureOpenStroke d).dropLast ++ [openStroke (ensureOpenStroke d) ++ [p]], true) := by
      unfold begin_or_continue
      simp [h]
    rw [e1]
    refine ⟨by simp [h], fun _ => ⟨openStroke_concat _ _, List.dropLast_concat⟩, by simp, ?_⟩
    have hne : (ensureOpenStroke d).dropLast ++ [openStroke (ensureOpenStroke d) ++ [p]] ≠ [] := by
      simp
    unfold begin_or_continue
    rw [ensureOpenStroke_of_ne_nil hne, openStroke_concat]
    simp

/-- Witness for C8: starting from the empty state, the point is appended and
the flag is `true`; re-sending the same point changes nothing. -/
theorem begin_or_continue_spec_witness :
    (begin_or_continue ([] : Sample) ⟨1, 1⟩).2 = true ∧
      (openStroke (begin_or_continue ([] : Sample) ⟨1, 1⟩).1 =
        openStroke (ensureOpenStroke []) ++ [⟨1, 1⟩] ∧
      (begin_or_continue ([] : Sample) ⟨1, 1⟩).1.dropLast =
        (ensureOpenStroke ([] : Sample)).dropLast) :=
  ⟨rfl, (begin_or_continue_spec [] ⟨1, 1⟩).2.1 rfl⟩

/-- **C9**: `end_stroke` is idempotent: a state whose open stroke is empty is
left unchanged, two consecutive calls equal one call, and the stroke count
does not grow on the second call. -/
theorem end_stroke_idempotent (d : Sample) :
    (d.getLast? = some [] → end_stroke d = d) ∧
    end_stroke (end_stroke d) = end_stroke d ∧
    (end_stroke (end_stroke d)).length = (end_stroke d).length := by
  have key : ∀ e : Sample, e.getLast? = some [] → end_stroke e = e := by
    intro e he
    have hne : e ≠ [] := by
      intro h; rw [h] at he; simp at he
    unfold end_stroke
    rw [ensureOpenStroke_of_ne_nil hne]
    simp [openStroke, he]
  have hsecond : (end_stroke d).getLast? = some [] := by
    unfold end_stroke
    by_cases h : (openStroke (ensureOpenStroke d)).isEmpty = true
    · rw [if_pos h]
      have hne := ensureOpenStroke_ne_nil d
      rcases List.eq_nil_or_concat (ensureOpenStroke d) with hl | ⟨l, a, hl⟩
      · exact absurd hl hne
      rw [List.concat_eq_append] at hl
      rw [hl] at h ⊢
      rw [List.getLast?_concat]
      rw [openStroke_concat, List.isEmpty_iff] at h
      rw [h]
    · rw [if_neg h]
      rw [List.getLast?_concat]
  exact ⟨key d, key _ hsecond, by rw [key _ hsecond]⟩

/-- Witness for C9: on a concrete state with an empty open stroke, a second
`end_stroke` is a no-op. -/
theorem end_stroke_idempotent_witness :
    ([[⟨0, 0⟩, ⟨1, 1⟩], []] : Sample).getLast? = some [] ∧
      end_stroke [[⟨0, 0⟩, ⟨1, 1⟩], []] = [[⟨0, 0⟩, ⟨1, 1⟩], []] :=
  ⟨rfl, (end_stroke_idempotent [[⟨0, 0⟩, ⟨1, 1⟩], []]).1 rfl⟩

/-! ## Bounding-box lemmas -/

/-- `p` lies inside the (closed) box described by `b`. -/
def covers (b : Bounds) (p : Pos2) : Prop :=
  b.min_x ≤ p.x ∧ p.x ≤ b.max_x ∧ b.min_y ≤ p.y ∧ p.y ≤ b.max_y

/-- `b'` is at least as wide as `b`. -/
def wider (b b' : Bounds) : Prop :=
  b'.min_x ≤ b.min_x ∧ b.max_x ≤ b'.max_x ∧ b'.min_y ≤ b.min_y ∧ b.max_y ≤ b'.max_y

theorem wider_refl (b : Bounds) : wider b b :=
  ⟨le_refl _, le_refl _, le_refl _, le_refl _⟩

theorem wider_trans {a b c : Bounds} (h1 : wider a b) (h2 : wider b c) : wider a c :=
  ⟨le_trans h2.1 h1.1, le_trans h1.2.1 h2.2.1, le_trans h2.2.2.1 h1.2.2.1,
    le_trans h1.2.2.2 h2.2.2.2⟩

theorem covers_of_wider {b b' : Bounds} {p : Pos2} (hc : covers b p) (hw : wider b b') :
    covers b' p :=
  ⟨le_trans hw.1 hc.1, le_trans hc.2.1 hw.2.1, le_trans hw.2.2.1 hc.2.2.1,
    le_trans hc.2.2.2 hw.2.2.2⟩

theorem covers_updateBounds (b : Bounds) (p : Pos2) : covers (updateBounds b p) p :=
  ⟨min_le_left _ _, le_max_left _ _, min_le_left _ _, le_max_left _ _⟩

theorem wider_updateBounds (b : Bounds) (p : Pos2) : wider b (updateBounds b p) :=
  ⟨min_le_right _ _, le_max_right _ _, min_le_right _ _, le_max_right _ _⟩

theorem wider_foldl_updateBounds (l : List Pos2) (b : Bounds) :
    wider b (l.foldl updateBounds b) := by
  induction l generalizing b with
  | nil => exact wider_refl b
  | cons q l ih => exact wider_trans (wider_updateBounds b q) (ih (updateBounds b q))

theorem covers_foldl_updateBounds {l : List Pos2} {p : Pos2} (hp : p ∈ l) (b : Bounds) :
    covers (l.foldl updateBounds b) p := by
  induction l generalizing b with
  | nil => cases hp
  | cons q l ih =>
    rcases List.mem_cons.mp hp with h | h
    · subst h
      exact covers_of_wider (covers_updateBounds b p) (wider_foldl_updateBounds l _)
    · exact ih h _

theorem wider_rawBounds_step (b : Bounds) (line : Stroke) :
    wider b (if line.length < 2 then b else line.foldl updateBounds b) := by
  by_cases h : line.length < 2
  · rw [if_pos h]; exact wider_refl b
  · rw [if_neg h]; exact wider_foldl_updateBounds line b

theorem wider_foldl_lines (ls : Sample) (b : Bounds) :
    wider b (ls.foldl
      (fun b line => if line.length < 2 then b else line.foldl updateBounds b) b) := by
  induction ls generalizing b with
  | nil => exact wider_refl b
  | cons l ls ih =>
    exact wider_trans (wider_rawBounds_step b l) (ih _)

theorem covers_rawBounds {lines : Sample} {line : Stroke} {p : Pos2}
    (hl : line ∈ lines) (h2 : 2 ≤ line.length) (hp : p ∈ line) :
    covers (rawBounds lines) p := by
  unfold rawBounds
  generalize initBounds = b
  induction lines generalizing b with
  | nil => cases hl
  | cons l ls ih =>
    rcases List.mem_cons.mp hl with h | h
    · subst h
      rw [List.foldl_cons, if_neg (Nat.not_lt.mpr h2)]
      exact covers_of_wider (covers_foldl_updateBounds hp b) (wider_foldl_lines ls _)
    · exact ih h _

theorem computeBounds_min_x (lines : Sample) :
    (computeBounds lines).min_x = (rawBounds lines).min_x := rfl

theorem computeBounds_min_y (lines : Sample) :
    (computeBounds lines).min_y = (rawBounds lines).min_y := rfl

theorem computeBounds_max_x (lines : Sample) :
    (computeBounds lines).max_x = (rawBounds lines).max_x + 1 := rfl

theorem computeBounds_max_y (lines : Sample) :
    (computeBounds lines).max_y = (rawBounds lines).max_y + 1 := rfl

/-- Every raw point of a non-degenerate stroke sits inside the expanded
bounding box, one unit away from the far edges. -/
theorem covers_computeBounds {lines : Sample} {line : Stroke} {p : Pos2}
    (hl : line ∈ lines) (h2 : 2 ≤ line.length) (hp : p ∈ line) :
    (computeBounds lines).min_x ≤ p.x ∧ p.x + 1 ≤ (computeBounds lines).max_x ∧
    (computeBounds lines).min_y ≤ p.y ∧ p.y + 1 ≤ (computeBounds lines).max_y := by
  have h := covers_rawBounds hl h2 hp
  refine ⟨h.1, ?_, h.2.2.1, ?_⟩
  · rw [computeBounds_max_x]; exact add_le_add_right h.2.1 1
  · rw [computeBounds_max_y]; exact add_le_add_right h.2.2.2 1

/-- The normalization divisors are positive as soon as one point of one
non-degenerate stroke exists. -/
theorem spans_pos {lines : Sample} {line : Stroke}
    (hl : line ∈ lines) (h2 : 2 ≤ line.length) :
    1 ≤ (computeBounds lines).max_x - (computeBounds lines).min_x ∧
    1 ≤ (computeBounds lines).max_y - (computeBounds lines).min_y := by
  have hne : line ≠ [] := by
    intro h; rw [h] at h2; simp at h2
  have hp : line.head hne ∈ line := List.head_mem hne
  have h := covers_computeBounds hl h2 hp
  constructor
  · have := le_trans (add_le_add_right h.1 1) h.2.1
    linarith
  · have := le_trans (add_le_add_right h.2.2.1 1) h.2.2.2
    linarith

/-- The two-point horizontal stroke `(0,0) – (10,0)` used by §8 of the spec. -/
def lineH : Stroke := [⟨0, 0⟩, ⟨10, 0⟩]

/-- The sample holding only `lineH`. -/
def sampleH : Sample := [lineH]

/-- **C5**: after the bounding-box scan, `max_x`/`max_y` are increased by
exactly `1.0`; for a sample with at least one non-degenerate stroke both
normalization divisors are at least `1` (hence non-zero) and strictly exceed
the data's span, and every input point of a non-degenerate stroke normalizes
strictly below `1`. -/
theorem epsilon_expansion_makes_divisors_safe (lines : Sample)
    (h : ∃ line ∈ lines, 2 ≤ line.length) :
    (computeBounds lines).max_x = (rawBounds lines).max_x + 1 ∧
    (computeBounds lines).max_y = (rawBounds lines).max_y + 1 ∧
    1 ≤ (computeBounds lines).max_x - (computeBounds lines).min_x ∧
    1 ≤ (computeBounds lines).max_y - (computeBounds lines).min_y ∧
    (rawBounds lines).max_x - (rawBounds lines).min_x <
      (computeBounds lines).max_x - (computeBounds lines).min_x ∧
    (rawBounds lines).max_y - (rawBounds lines).min_y <
      (computeBounds lines).max_y - (computeBounds lines).min_y ∧
    (computeBounds lines).max_x - (computeBounds lines).min_x ≠ 0 ∧
    (computeBounds lines).max_y - (computeBounds lines).min_y ≠ 0 ∧
    ∀ line ∈ lines, 2 ≤ line.length → ∀ p ∈ line,
      normX (computeBounds lines) p < 1 ∧ normY (computeBounds lines) p < 1 := by
  rcases h with ⟨line, hl, h2⟩
  have hspan := spans_pos hl h2
  refine ⟨rfl, rfl, hspan.1, hspan.2, ?_, ?_, by linarith [hspan.1], by linarith [hspan.2], ?_⟩
  · rw [computeBounds_max_x, computeBounds_min_x]; linarith
  · rw [computeBounds_max_y, computeBounds_min_y]; linarith
  · intro l hl' h2' p hp
    have hc := covers_computeBounds hl' h2' hp
    have hx : 0 < (computeBounds lines).max_x - (computeBounds lines).min_x := by
      linarith [hspan.1]
    have hy : 0 < (computeBounds lines).max_y - (computeBounds lines).min_y := by
      linarith [hspan.2]
    constructor
    · rw [normX, div_lt_one hx]; linarith [hc.2.1]
    · rw [normY, div_lt_one hy]; linarith [hc.2.2.2]

/-- Witness for C5 on the concrete two-point sample. -/
theorem epsilon_expansion_makes_divisors_safe_witness :
    (∃ line ∈ sampleH, 2 ≤ line.length) ∧
      1 ≤ (computeBounds sampleH).max_x - (computeBounds sampleH).min_x ∧
      (computeBounds sampleH).max_x - (computeBounds sampleH).min_x ≠ 0 :=
  ⟨⟨lineH, by simp [sampleH], by simp [lineH]⟩,
    (epsilon_expansion_makes_divisors_safe sampleH
      ⟨lineH, by simp [sampleH], by simp [lineH]⟩).2.2.1,
    (epsilon_expansion_makes_divisors_safe sampleH
      ⟨lineH, by simp [sampleH], by simp [lineH]⟩).2.2.2.2.2.2.1⟩

/-! ## Interpolation and pixel-index bounds -/

theorem interp_le (u v r : ℚ) (h0 : 0 ≤ r) (h1 : r ≤ 1) :
    min u v ≤ u + (v - u) * r ∧ u + (v - u) * r ≤ max u v := by
  rcases le_total u v with h | h
  · rw [min_eq_left h, max_eq_right h]
    constructor <;> nlinarith
  · rw [min_eq_right h, max_eq_left h]
    constructor <;> nlinarith

/-- The interpolated point of a step stays between the segment endpoints,
coordinatewise. -/
theorem interpPoint_between (a b : Pos2) {t s : ℕ} (ht : t < s) :
    min a.x b.x ≤ (interpPoint a b t s).x ∧ (interpPoint a b t s).x ≤ max a.x b.x ∧
    min a.y b.y ≤ (interpPoint a b t s).y ∧ (interpPoint a b t s).y ≤ max a.y b.y := by
  have hs : 0 < (s : ℚ) := by
    exact_mod_cast lt_of_le_of_lt (Nat.zero_le t) ht
  have h0 : 0 ≤ (t : ℚ) / (s : ℚ) := div_nonneg (by positivity) (le_of_lt hs)
  have h1 : (t : ℚ) / (s : ℚ) ≤ 1 := by
    rw [div_le_one hs]
    exact_mod_cast le_of_lt ht
  have hx := interp_le a.x b.x ((t : ℚ) / (s : ℚ)) h0 h1
  have hy := interp_le a.y b.y ((t : ℚ) / (s : ℚ)) h0 h1
  have ex : (interpPoint a b t s).x = a.x + (b.x - a.x) * ((t : ℚ) / (s : ℚ)) := by
    simp [interpPoint, mul_div_assoc]
  have ey : (interpPoint a b t s).y = a.y + (b.y - a.y) * ((t : ℚ) / (s : ℚ)) := by
    simp [interpPoint, mul_div_assoc]
  rw [ex, ey]
  exact ⟨hx.1, hx.2, hy.1, hy.2⟩

theorem norm_nonneg_lt_one {bd : Bounds} {p : Pos2}
    (hx1 : bd.min_x ≤ p.x) (hx2 : p.x + 1 ≤ bd.max_x)
    (hy1 : bd.min_y ≤ p.y) (hy2 : p.y + 1 ≤ bd.max_y) :
    0 ≤ normX bd p ∧ normX bd p < 1 ∧ 0 ≤ normY bd p ∧ normY bd p < 1 := by
  have hdx : 0 < bd.max_x - bd.min_x := by linarith
  have hdy : 0 < bd.max_y - bd.min_y := by linarith
  refine ⟨div_nonneg (by linarith) (le_of_lt hdx), ?_,
    div_nonneg (by linarith) (le_of_lt hdy), ?_⟩
  · rw [normX, div_lt_one hdx]; linarith
  · rw [normY, div_lt_one hdy]; linarith

theorem floor_scaled_idx {q : ℚ} {n : ℕ} (h0 : 0 ≤ q) (h1 : q < 1) (hn : 1 ≤ n) :
    0 ≤ ⌊q * (n : ℚ)⌋ ∧ ⌊q * (n : ℚ)⌋ < (n : ℤ) := by
  have hn' : (0 : ℚ) < (n : ℚ) := by exact_mod_cast hn
  constructor
  · exact Int.floor_nonneg.mpr (mul_nonneg h0 (le_of_lt hn'))
  · rw [Int.floor_lt]
    push_cast
    nlinarith

/-- Both endpoints of a consecutive pair produced by
`line.iter().zip(line.iter().skip(1))` belong to the stroke. -/
theorem zip_tail_mem {line : Stroke} {ab : Pos2 × Pos2} (hab : ab ∈ line.zip line.tail) :
    ab.1 ∈ line ∧ ab.2 ∈ line := by
  obtain ⟨a, b⟩ := ab
  have h := List.of_mem_zip hab
  exact ⟨h.1, List.mem_of_mem_tail h.2⟩

/-- Every pixel index computed by the drawing loop is a valid index of the
target image, for any sample, whenever both raster dimensions are `≥ 1`. -/
theorem plottedPixels_inBounds (lines : Sample) (size : ℕ × ℕ)
    (hw : 1 ≤ size.1) (hh : 1 ≤ size.2) :
    ∀ q ∈ plottedPixels lines size, inBounds size q := by
  intro q hq
  unfold plottedPixels at hq
  rw [List.mem_flatMap] at hq
  rcases hq with ⟨line, hline, hq⟩
  rw [List.mem_filter] at hline
  have h2 : 2 ≤ line.length := by
    have := hline.2
    simp only [Bool.not_eq_eq_eq_not, Bool.not_true, decide_eq_false_iff_not] at this
    omega
  rw [List.mem_flatMap] at hq
  rcases hq with ⟨ab, hab, hq⟩
  unfold segmentPixels at hq
  rw [List.mem_map] at hq
  rcases hq with ⟨t, ht, rfl⟩
  rw [List.mem_range] at ht
  have hmem := zip_tail_mem hab
  have hca := covers_computeBounds hline.1 h2 hmem.1
  have hcb := covers_computeBounds hline.1 h2 hmem.2
  have hbet := interpPoint_between ab.1 ab.2 ht
  have hx1 : (computeBounds lines).min_x ≤ (interpPoint ab.1 ab.2 t (pixelSteps ab.1 ab.2)).x :=
    le_trans (le_min hca.1 hcb.1) hbet.1
  have hx2 : (interpPoint ab.1 ab.2 t (pixelSteps ab.1 ab.2)).x + 1 ≤ (computeBounds lines).max_x := by
    rcases max_cases ab.1.x ab.2.x with ⟨he, _⟩ | ⟨he, _⟩ <;>
      [have := hca.2.1; have := hcb.2.1] <;>
      · have h := hbet.2.1
        rw [he] at h
        linarith
  have hy1 : (computeBounds lines).min_y ≤ (interpPoint ab.1 ab.2 t (pixelSteps ab.1 ab.2)).y :=
    le_trans (le_min hca.2.2.1 hcb.2.2.1) hbet.2.2.1
  have hy2 : (interpPoint ab.1 ab.2 t (pixelSteps ab.1 ab.2)).y + 1 ≤ (computeBounds lines).max_y := by
    rcases max_cases ab.1.y ab.2.y with ⟨he, _⟩ | ⟨he, _⟩ <;>
      [have := hca.2.2.2.2; have := hcb.2.2.2.2] <;>
      · have h := hbet.2.2.2
        rw [he] at h
        linarith
  have hn := norm_nonneg_lt_one hx1 hx2 hy1 hy2
  have hfx := floor_scaled_idx hn.1 hn.2.1 hw
  have hfy := floor_scaled_idx hn.2.2.1 hn.2.2.2 hh
  exact ⟨hfx.1, hfx.2, hfy.1, hfy.2⟩

/-- **C1**: for a sample whose strokes all have at least 2 points and a raster
with both dimensions `≥ 1`, every pixel index the drawing loop computes lies
in `[0, width) × [0, height)`, so (after the saturating cast) the pixel write
of `save_image` is always inside the image. -/
theorem pixel_indices_always_in_bounds (lines : Sample) (size : ℕ × ℕ)
    (_hall : ∀ line ∈ lines, 2 ≤ line.length) (hw : 1 ≤ size.1) (hh : 1 ≤ size.2) :
    ∀ q ∈ plottedPixels lines size,
      inBounds size q ∧ q.1.toNat < size.1 ∧ q.2.toNat < size.2 := by
  intro q hq
  have h := plottedPixels_inBounds lines size hw hh q hq
  refine ⟨h, ?_, ?_⟩
  · have h1 := h.1
    have h2 := h.2.1
    omega
  · have h1 := h.2.2.1
    have h2 := h.2.2.2
    omega

/-- Witness for C1 at the concrete two-point sample on a `10×10` raster. -/
theorem pixel_indices_always_in_bounds_witness :
    (∀ line ∈ sampleH, 2 ≤ line.length) ∧ 1 ≤ 10 ∧
      ∀ q ∈ plottedPixels sampleH (10, 10),
        inBounds (10, 10) q ∧ q.1.toNat < 10 ∧ q.2.toNat < 10 :=
  ⟨by decide, by decide,
    pixel_indices_always_in_bounds sampleH (10, 10) (by decide) (by decide) (by decide)⟩

/-! ## Image contents -/

/-- The pixel position actually written (after the saturating cast) for a raw
point, line 218 of the source. -/
def natPixel (bd : Bounds) (size : ℕ × ℕ) (p : Pos2) : ℕ × ℕ :=
  (f32ToU32 (normX bd p * (size.1 : ℚ)), f32ToU32 (normY bd p * (size.2 : ℚ)))

theorem Image.set_pix (img : Image) (u v i j : ℕ) :
    ((img.set u v).pix i j = true) ↔ (img.pix i j = true ∨ (i = u ∧ j = v)) := by
  unfold Image.set
  by_cases h : i = u ∧ j = v
  · simp [h]
  · simp [h]

theorem foldl_pix_iff {α : Type} (g : Image → α → Image) (P : α → ℕ → ℕ → Prop)
    (hg : ∀ im a i j, ((g im a).pix i j = true) ↔ (im.pix i j = true ∨ P a i j)) :
    ∀ (l : List α) (im : Image) (i j : ℕ),
      ((l.foldl g im).pix i j = true) ↔ (im.pix i j = true ∨ ∃ a ∈ l, P a i j) := by
  intro l
  induction l with
  | nil => simp
  | cons a l ih =>
    intro im i j
    rw [List.foldl_cons, ih (g im a) i j, hg im a i j]
    simp only [List.mem_cons]
    constructor
    · rintro ((h | h) | ⟨b, hb, hP⟩)
      · exact Or.inl h
      · exact Or.inr ⟨a, Or.inl rfl, h⟩
      · exact Or.inr ⟨b, Or.inr hb, hP⟩
    · rintro (h | ⟨b, (hb | hb), hP⟩)
      · exact Or.inl (Or.inl h)
      · subst hb; exact Or.inl (Or.inr hP)
      · exact Or.inr ⟨b, hb, hP⟩

set_option maxHeartbeats 1000000 in
theorem drawSegment_pix (bd : Bounds) (size : ℕ × ℕ) (a b : Pos2) (img : Image)
    (i j : ℕ) :
    ((drawSegment bd size a b img).pix i j = true) ↔
      (img.pix i j = true ∨ ∃ t ∈ List.range (pixelSteps a b),
        (i, j) = natPixel bd size (interpPoint a b t (pixelSteps a b))) := by
  have hg : ∀ (im : Image) (t : ℕ) (i j : ℕ),
      ((im.set (f32ToU32 (normX bd (interpPoint a b t (pixelSteps a b)) * (size.1 : ℚ)))
          (f32ToU32 (normY bd (interpPoint a b t (pixelSteps a b)) * (size.2 : ℚ)))).pix i j
        = true) ↔
      (im.pix i j = true ∨
        (i, j) = natPixel bd size (interpPoint a b t (pixelSteps a b))) := by
    intro im t i j
    rw [Image.set_pix]
    unfold natPixel
    simp [Prod.ext_iff]
  unfold drawSegment
  refine foldl_pix_iff _
    (fun t i j => (i, j) = natPixel bd size (interpPoint a b t (pixelSteps a b)))
    hg _ img i j

set_option maxHeartbeats 1000000 in
theorem drawLine_pix (bd : Bounds) (size : ℕ × ℕ) (line : Stroke) (img : Image)
    (i j : ℕ) :
    ((drawLine bd size line img).pix i j = true) ↔
      (img.pix i j = true ∨ ∃ ab ∈ line.zip line.tail,
        ∃ t ∈ List.range (pixelSteps ab.1 ab.2),
          (i, j) = natPixel bd size (interpPoint ab.1 ab.2 t (pixelSteps ab.1 ab.2))) := by
  unfold drawLine
  refine foldl_pix_iff (fun im ab => drawSegment bd size ab.1 ab.2 im)
    (fun ab i j => ∃ t ∈ List.range (pixelSteps ab.1 ab.2),
      (i, j) = natPixel bd size (interpPoint ab.1 ab.2 t (pixelSteps ab.1 ab.2)))
    ?_ (line.zip line.tail) img i j
  intro im ab i j
  exact drawSegment_pix bd size ab.1 ab.2 im i j

/-- Characterization of the output image: a pixel is foreground exactly when
some step of some segment of some non-degenerate stroke writes it. -/
theorem save_image_pix (lines : Sample) (size : ℕ × ℕ) (i j : ℕ) :
    ((save_image lines size).pix i j = true) ↔
      ∃ line ∈ lines, 2 ≤ line.length ∧ ∃ ab ∈ line.zip line.tail,
        ∃ t ∈ List.range (pixelSteps ab.1 ab.2),
          (i, j) = natPixel (computeBounds lines) size
            (interpPoint ab.1 ab.2 t (pixelSteps ab.1 ab.2)) := by
  have hg : ∀ (im : Image) (line : Stroke) (i j : ℕ),
      (((if line.length < 2 then im
          else drawLine (computeBounds lines) size line im)).pix i j = true) ↔
        (im.pix i j = true ∨ (2 ≤ line.length ∧ ∃ ab ∈ line.zip line.tail,
          ∃ t ∈ List.range (pixelSteps ab.1 ab.2),
            (i, j) = natPixel (computeBounds lines) size
              (interpPoint ab.1 ab.2 t (pixelSteps ab.1 ab.2)))) := by
    intro im line i j
    by_cases h2 : line.length < 2
    · rw [if_pos h2]
      have hn : ¬ 2 ≤ line.length := by omega
      simp [hn]
    · rw [if_neg h2]
      rw [drawLine_pix]
      have h2' : 2 ≤ line.length := by omega
      simp [h2']
  have h := foldl_pix_iff _ _ hg lines (Image.new size.1 size.2) i j
  unfold save_image
  rw [h]
  simp [Image.new]

theorem foldl_width {α : Type} {g : Image → α → Image}
    (hg : ∀ im a, (g im a).width = im.width ∧ (g im a).height = im.height) :
    ∀ (l : List α) (im : Image),
      (l.foldl g im).width = im.width ∧ (l.foldl g im).height = im.height := by
  intro l
  induction l with
  | nil => exact fun im => ⟨rfl, rfl⟩
  | cons a l ih =>
    intro im
    rw [List.foldl_cons]
    refine ⟨(ih (g im a)).1.trans (hg im a).1, (ih (g im a)).2.trans (hg im a).2⟩

theorem drawSegment_size (bd : Bounds) (size : ℕ × ℕ) (a b : Pos2) (im : Image) :
    (drawSegment bd size a b im).width = im.width ∧
    (drawSegment bd size a b im).height = im.height := by
  unfold drawSegment
  refine foldl_width ?_ _ im
  intro im t
  exact ⟨rfl, rfl⟩

theorem drawLine_size (bd : Bounds) (size : ℕ × ℕ) (line : Stroke) (im : Image) :
    (drawLine bd size line im).width = im.width ∧
    (drawLine bd size line im).height = im.height := by
  unfold drawLine
  refine foldl_width ?_ _ im
  intro im ab
  exact drawSegment_size bd size ab.1 ab.2 im

theorem save_image_size (lines : Sample) (size : ℕ × ℕ) :
    (save_image lines size).width = size.1 ∧ (save_image lines size).height = size.2 := by
  unfold save_image
  refine foldl_width (fun im line => ?_) lines (Image.new size.1 size.2)
  by_cases h2 : line.length < 2
  · rw [if_pos h2]; exact ⟨rfl, rfl⟩
  · rw [if_neg h2]; exact drawLine_size _ size line im

/-- **C2**: an empty sample, or one whose strokes are all degenerate, yields an
image of exactly the requested size with every pixel background. -/
theorem degenerate_sample_all_background (lines : Sample) (size : ℕ × ℕ)
    (hdeg : ∀ line ∈ lines, line.length < 2) (_hw : 1 ≤ size.1) (_hh : 1 ≤ size.2) :
    (save_image lines size).width = size.1 ∧ (save_image lines size).height = size.2 ∧
    ∀ i j, (save_image lines size).pix i j = false := by
  refine ⟨(save_image_size lines size).1, (save_image_size lines size).2, ?_⟩
  intro i j
  rw [Bool.eq_false_iff]
  intro htrue
  rcases (save_image_pix lines size i j).mp htrue with ⟨line, hl, h2, _⟩
  exact absurd (hdeg line hl) (by omega)

/-- Witness for C2: the empty sample on a `5×7` raster. -/
theorem degenerate_sample_all_background_witness :
    (∀ line ∈ ([] : Sample), line.length < 2) ∧
      (save_image [] (5, 7)).width = 5 ∧ (save_image [] (5, 7)).height = 7 ∧
      ∀ i j, (save_image [] (5, 7)).pix i j = false :=
  ⟨by simp,
    degenerate_sample_all_background [] (5, 7) (by simp) (by decide) (by decide)⟩

/-! ## C3: the concrete two-point sample on a 10×10 raster -/

theorem bounds_sampleH :
    computeBounds sampleH = { min_x := 0, max_x := 11, min_y := 0, max_y := 1 } := by
  unfold computeBounds rawBounds sampleH lineH initBounds updateBounds
  norm_num [List.foldl, min_def, max_def]

theorem pixelSteps_H : pixelSteps ⟨0, 0⟩ ⟨10, 0⟩ = 10 := by
  unfold pixelSteps
  norm_num
  decide

theorem natPixel_H (t : ℕ) :
    natPixel { min_x := 0, max_x := 11, min_y := 0, max_y := 1 } (10, 10)
      (interpPoint ⟨0, 0⟩ ⟨10, 0⟩ t 10) = (10 * t / 11, 0) := by
  unfold natPixel f32ToU32 normX normY interpPoint
  norm_num
  have h1 : ((t : ℚ) / 11 * 10) = ((10 * t : ℤ) : ℚ) / ((11 : ℕ) : ℚ) := by
    push_cast
    ring
  rw [h1, Rat.floor_intCast_div_natCast]
  omega

/-- Full description of the raster of `sampleH` on `10×10`: exactly row `0`,
columns `0`–`8`, is foreground. -/
theorem save_image_sampleH_pix (i j : ℕ) :
    ((save_image sampleH (10, 10)).pix i j = true) ↔ (j = 0 ∧ i ≤ 8) := by
  rw [save_image_pix]
  have hzip : lineH.zip lineH.tail = [(⟨0, 0⟩, ⟨10, 0⟩)] := rfl
  constructor
  · rintro ⟨line, hl, h2, ab, hab, t, ht, heq⟩
    rw [sampleH, List.mem_singleton] at hl
    subst hl
    rw [hzip, List.mem_singleton] at hab
    subst hab
    dsimp only at heq ht
    rw [List.mem_range, pixelSteps_H] at ht
    rw [bounds_sampleH, pixelSteps_H, natPixel_H] at heq
    have hi : i = 10 * t / 11 := congrArg Prod.fst heq
    have hj : j = 0 := congrArg Prod.snd heq
    exact ⟨hj, by omega⟩
  · rintro ⟨rfl, hi⟩
    refine ⟨lineH, by simp [sampleH], by simp [lineH], (⟨0, 0⟩, ⟨10, 0⟩),
      by rw [hzip]; exact List.mem_singleton.mpr rfl, ?_⟩
    dsimp only
    rw [pixelSteps_H, bounds_sampleH]
    refine ⟨if i = 0 then 0 else i + 1, ?_, ?_⟩
    · rw [List.mem_range]
      split <;> omega
    · rw [natPixel_H]
      rcases Nat.eq_zero_or_pos i with h0 | h0
      · subst h0
        norm_num
      · rw [if_neg (by omega)]
        have : 10 * (i + 1) / 11 = i := by omega
        rw [this]

/-- Counterexample to C3 as stated: no row of the raster of the two-point
stroke `(0,0)–(10,0)` on `10×10` is foreground across all 10 columns (the
epsilon-expanded bounding box compresses the stroke into columns 0–8). -/
theorem two_point_stroke_no_full_width_row :
    ¬ ∃ r, r < 10 ∧ ∀ c, c < 10 → (save_image sampleH (10, 10)).pix c r = true := by
  rintro ⟨r, hr, hall⟩
  have h9 := hall 9 (by omega)
  rw [save_image_sampleH_pix] at h9
  exact absurd h9.2 (by omega)

/-- **C3** (amended): rasterizing the single stroke `(0,0)–(10,0)` onto a
`10×10` raster produces a horizontal run of foreground pixels at the single
row `0` spanning columns `0`–`8` (9 of the 10 columns; the final column stays
background), with background everywhere else. -/
theorem two_point_stroke_single_row_run :
    (save_image sampleH (10, 10)).width = 10 ∧
    (save_image sampleH (10, 10)).height = 10 ∧
    ∀ i j, ((save_image sampleH (10, 10)).pix i j = true ↔ (j = 0 ∧ i ≤ 8)) :=
  ⟨(save_image_size sampleH (10, 10)).1, (save_image_size sampleH (10, 10)).2,
    save_image_sampleH_pix⟩

/-! ## C4: Chebyshev adjacency of consecutively plotted pixels -/

/-- Two pixel indices differ by at most one in each coordinate. -/
def chebAdjacent (p q : ℤ × ℤ) : Prop :=
  (q.1 - p.1).natAbs ≤ 1 ∧ (q.2 - p.2).natAbs ≤ 1

instance (p q : ℤ × ℤ) : Decidable (chebAdjacent p q) :=
  inferInstanceAs (Decidable ((q.1 - p.1).natAbs ≤ 1 ∧ (q.2 - p.2).natAbs ≤ 1))

theorem chain'_map_range {α : Type} {R : α → α → Prop} (f : ℕ → α) (n : ℕ)
    (h : ∀ i, i + 1 < n → R (f i) (f (i + 1))) :
    List.Chain' R ((List.range n).map f) := by
  rw [List.chain'_iff_get]
  intro i hi
  simp only [List.length_map, List.length_range] at hi
  simp only [List.get_eq_getElem, List.getElem_map, List.getElem_range]
  exact h i (by omega)

theorem floor_pair_adjacent {u v : ℚ} (h : |u - v| ≤ 1) : (⌊u⌋ - ⌊v⌋).natAbs ≤ 1 := by
  rw [abs_le] at h
  have h1 : ⌊u⌋ ≤ ⌊v⌋ + 1 := by
    have hu : u ≤ v + 1 := by linarith
    calc ⌊u⌋ ≤ ⌊v + 1⌋ := Int.floor_mono hu
    _ = ⌊v⌋ + 1 := Int.floor_add_one v
  have h2 : ⌊v⌋ ≤ ⌊u⌋ + 1 := by
    have hv : v ≤ u + 1 := by linarith
    calc ⌊v⌋ ≤ ⌊u + 1⌋ := Int.floor_mono hv
    _ = ⌊u⌋ + 1 := Int.floor_add_one u
  omega

/-- The step count dominates the source-space displacement, coordinatewise. -/
theorem pixelSteps_cast_ge (a b : Pos2) :
    |b.x - a.x| ≤ (pixelSteps a b : ℚ) ∧ |b.y - a.y| ≤ (pixelSteps a b : ℚ) := by
  unfold pixelSteps
  have hm : (0 : ℚ) ≤ max |b.x - a.x| |b.y - a.y| :=
    le_trans (abs_nonneg _) (le_max_left _ _)
  have hc : (0 : ℤ) ≤ ⌈max |b.x - a.x| |b.y - a.y|⌉ := Int.ceil_nonneg hm
  have hcast : (((⌈max |b.x - a.x| |b.y - a.y|⌉).toNat : ℕ) : ℚ) =
      ((⌈max |b.x - a.x| |b.y - a.y|⌉ : ℤ) : ℚ) := by
    exact_mod_cast congrArg (fun z : ℤ => (z : ℚ)) (Int.toNat_of_nonneg hc)
  rw [hcast]
  constructor
  · exact le_trans (le_trans (le_max_left _ _) (Int.le_ceil _)) (le_refl _)
  · exact le_trans (le_trans (le_max_right _ _) (Int.le_ceil _)) (le_refl _)

theorem segmentPixels_chain (bd : Bounds) (size : ℕ × ℕ) (a b : Pos2)
    (hw : 1 ≤ size.1) (hh : 1 ≤ size.2)
    (hwD : (size.1 : ℚ) ≤ bd.max_x - bd.min_x)
    (hhD : (size.2 : ℚ) ≤ bd.max_y - bd.min_y) :
    List.Chain' chebAdjacent (segmentPixels bd size a b) := by
  unfold segmentPixels
  apply chain'_map_range
  intro t ht
  have hs0 : 0 < pixelSteps a b := by omega
  have hsq : (0 : ℚ) < (pixelSteps a b : ℚ) := by exact_mod_cast hs0
  have hwq : (0 : ℚ) < (size.1 : ℚ) := by exact_mod_cast hw
  have hhq : (0 : ℚ) < (size.2 : ℚ) := by exact_mod_cast hh
  have hDx : (0 : ℚ) < bd.max_x - bd.min_x := lt_of_lt_of_le hwq hwD
  have hDy : (0 : ℚ) < bd.max_y - bd.min_y := lt_of_lt_of_le hhq hhD
  have ediffx : normX bd (interpPoint a b (t + 1) (pixelSteps a b)) * (size.1 : ℚ) -
      normX bd (interpPoint a b t (pixelSteps a b)) * (size.1 : ℚ) =
      (b.x - a.x) * (size.1 : ℚ) / ((pixelSteps a b : ℚ) * (bd.max_x - bd.min_x)) := by
    unfold normX interpPoint
    field_simp
    ring
  have ediffy : normY bd (interpPoint a b (t + 1) (pixelSteps a b)) * (size.2 : ℚ) -
      normY bd (interpPoint a b t (pixelSteps a b)) * (size.2 : ℚ) =
      (b.y - a.y) * (size.2 : ℚ) / ((pixelSteps a b : ℚ) * (bd.max_y - bd.min_y)) := by
    unfold normY interpPoint
    field_simp
    ring
  have habsx : |normX bd (interpPoint a b (t + 1) (pixelSteps a b)) * (size.1 : ℚ) -
      normX bd (interpPoint a b t (pixelSteps a b)) * (size.1 : ℚ)| ≤ 1 := by
    rw [ediffx, abs_div, abs_mul, abs_of_pos (mul_pos hsq hDx),
      div_le_one (mul_pos hsq hDx), Nat.abs_cast]
    exact mul_le_mul (pixelSteps_cast_ge a b).1 hwD (le_of_lt hwq) (le_of_lt hsq)
  have habsy : |normY bd (interpPoint a b (t + 1) (pixelSteps a b)) * (size.2 : ℚ) -
      normY bd (interpPoint a b t (pixelSteps a b)) * (size.2 : ℚ)| ≤ 1 := by
    rw [ediffy, abs_div, abs_mul, abs_of_pos (mul_pos hsq hDy),
      div_le_one (mul_pos hsq hDy), Nat.abs_cast]
    exact mul_le_mul (pixelSteps_cast_ge a b).2 hhD (le_of_lt hhq) (le_of_lt hsq)
  exact ⟨floor_pair_adjacent habsx, floor_pair_adjacent habsy⟩

/-- A two-point stroke whose source-space extent (2 units) is far smaller than
the raster width used against it. -/
def lineW : Stroke := [⟨0, 0⟩, ⟨2, 0⟩]

/-- The sample holding only `lineW`. -/
def sampleW : Sample := [lineW]

theorem bounds_sampleW :
    computeBounds sampleW = { min_x := 0, max_x := 3, min_y := 0, max_y := 1 } := by
  unfold computeBounds rawBounds sampleW lineW initBounds updateBounds
  norm_num [List.foldl, min_def, max_def]

theorem pixelSteps_W : pixelSteps ⟨0, 0⟩ ⟨2, 0⟩ = 2 := by
  unfold pixelSteps
  norm_num
  decide

theorem segmentPixels_W :
    segmentPixels (computeBounds sampleW) (100, 1) ⟨0, 0⟩ ⟨2, 0⟩ = [(0, 0), (33, 0)] := by
  unfold segmentPixels
  rw [pixelSteps_W, bounds_sampleW]
  rw [show List.range 2 = [0, 1] from rfl]
  simp only [List.map_cons, List.map_nil]
  unfold rasterPixel normX normY interpPoint
  norm_num [Prod.ext_iff, Int.floor_eq_iff]

/-- Counterexample to C4 as stated: on the valid `100×1` raster, the single
segment `(0,0)–(2,0)` of `sampleW` plots the pixels `(0,0)` and `(33,0)` in
consecutive steps — a horizontal jump of 33 columns, not Chebyshev-adjacent,
because the step count comes from the 2-unit source extent while the raster is
100 pixels wide. -/
theorem consecutive_pixels_not_adjacent_on_fine_raster :
    lineW ∈ sampleW ∧ 2 ≤ lineW.length ∧
    (⟨0, 0⟩, ⟨2, 0⟩) ∈ lineW.zip lineW.tail ∧
    segmentPixels (computeBounds sampleW) (100, 1) ⟨0, 0⟩ ⟨2, 0⟩ = [(0, 0), (33, 0)] ∧
    ¬ List.Chain' chebAdjacent
        (segmentPixels (computeBounds sampleW) (100, 1) ⟨0, 0⟩ ⟨2, 0⟩) := by
  refine ⟨List.mem_singleton.mpr rfl, by norm_num [lineW],
    List.mem_singleton.mpr rfl, segmentPixels_W, ?_⟩
  rw [segmentPixels_W]
  intro hch
  exact absurd (List.chain'_cons.mp hch).1 (by decide)

/-- **C4** (amended): whenever the raster is no finer than the expanded
bounding box — `width ≤ max_x - min_x` and `height ≤ max_y - min_y` — any two
consecutively plotted pixels within a segment of a non-degenerate stroke are
Chebyshev-adjacent, so the polyline is gap-free. -/
theorem rasterized_segments_gap_free (lines : Sample) (size : ℕ × ℕ)
    (hw : 1 ≤ size.1) (hh : 1 ≤ size.2)
    (hwD : (size.1 : ℚ) ≤ (computeBounds lines).max_x - (computeBounds lines).min_x)
    (hhD : (size.2 : ℚ) ≤ (computeBounds lines).max_y - (computeBounds lines).min_y) :
    ∀ line ∈ lines, 2 ≤ line.length → ∀ ab ∈ line.zip line.tail,
      List.Chain' chebAdjacent (segmentPixels (computeBounds lines) size ab.1 ab.2) :=
  fun _ _ _ ab _ => segmentPixels_chain (computeBounds lines) size ab.1 ab.2 hw hh hwD hhD

/-- Witness for the amended C4 on `sampleH` with a `10×1` raster (no finer than
the `11×1` expanded bounding box). -/
theorem rasterized_segments_gap_free_witness :
    ((10 : ℚ) ≤ (computeBounds sampleH).max_x - (computeBounds sampleH).min_x) ∧
    List.Chain' chebAdjacent
      (segmentPixels (computeBounds sampleH) (10, 1) ⟨0, 0⟩ ⟨10, 0⟩) :=
  ⟨by rw [bounds_sampleH]; norm_num,
    rasterized_segments_gap_free sampleH (10, 1) (by omega) (by omega)
      (by rw [bounds_sampleH]; norm_num) (by rw [bounds_sampleH]; norm_num)
      lineH (List.mem_singleton.mpr rfl) (by norm_num [lineH])
      (⟨0, 0⟩, ⟨10, 0⟩) (List.mem_singleton.mpr rfl)⟩

/-! ## C10: zero raster dimensions -/

/-- Lower bound of the width/height sliders `0..=256` (lines 115-116). -/
def sliderMin : ℕ := 0

/-- Upper bound of the width/height sliders `0..=256` (lines 115-116). -/
def sliderMax : ℕ := 256

/-- A sample whose single stroke has two points — non-degenerate by the
`< 2` test — that happen to coincide. -/
def sampleD : Sample := [[⟨0, 0⟩, ⟨0, 0⟩]]

theorem pixelSteps_same_point : pixelSteps ⟨0, 0⟩ ⟨0, 0⟩ = 0 := by
  unfold pixelSteps
  norm_num

/-- Counterexample to C10 as stated: `sampleD` has a non-degenerate stroke,
yet at width 0 (indeed at any size) its drawing loop computes no pixel index
at all — `pixel_steps` is 0 for the zero-length segment — so no out-of-bounds
write happens. -/
theorem stationary_stroke_writes_nothing :
    (∃ line ∈ sampleD, 2 ≤ line.length) ∧ plottedPixels sampleD (0, 5) = [] := by
  constructor
  · exact ⟨[⟨0, 0⟩, ⟨0, 0⟩], List.mem_singleton.mpr rfl, by norm_num⟩
  · unfold plottedPixels segmentPixels sampleD
    simp [pixelSteps_same_point]

/-- **C10** (amended): the sliders allow dimension 0, and for any sample with
a non-degenerate stroke containing two *distinct* consecutive points, a raster
size with width 0 or height 0 makes the drawing loop compute a pixel index
outside the image bounds (the `get_pixel_mut` write would be out of range):
the operation is only safe under the unenforced precondition that both
dimensions are at least 1. -/
theorem zero_dimension_out_of_bounds (lines : Sample) (size : ℕ × ℕ)
    (h0 : size.1 = 0 ∨ size.2 = 0)
    (hmove : ∃ line ∈ lines, 2 ≤ line.length ∧ ∃ ab ∈ line.zip line.tail, ab.1 ≠ ab.2) :
    sliderMin = 0 ∧ ∃ q ∈ plottedPixels lines size, ¬ inBounds size q := by
  refine ⟨rfl, ?_⟩
  rcases hmove with ⟨line, hl, h2, ab, hab, hne⟩
  have hm : 0 < max |ab.2.x - ab.1.x| |ab.2.y - ab.1.y| := by
    by_contra hc
    push_neg at hc
    have hx : |ab.2.x - ab.1.x| ≤ 0 := le_trans (le_max_left _ _) hc
    have hy : |ab.2.y - ab.1.y| ≤ 0 := le_trans (le_max_right _ _) hc
    have hx0 : ab.2.x - ab.1.x = 0 := by
      rw [← abs_eq_zero]
      exact le_antisymm hx (abs_nonneg _)
    have hy0 : ab.2.y - ab.1.y = 0 := by
      rw [← abs_eq_zero]
      exact le_antisymm hy (abs_nonneg _)
    exact hne (Pos2.ext (by linarith) (by linarith))
  have hsteps : 0 < pixelSteps ab.1 ab.2 := by
    unfold pixelSteps
    have hcpos : (0 : ℤ) < ⌈max |ab.2.x - ab.1.x| |ab.2.y - ab.1.y|⌉ :=
      Int.ceil_pos.mpr hm
    omega
  refine ⟨rasterPixel (computeBounds lines) size
    (interpPoint ab.1 ab.2 0 (pixelSteps ab.1 ab.2)), ?_, ?_⟩
  · unfold plottedPixels
    rw [List.mem_flatMap]
    refine ⟨line, ?_, ?_⟩
    · rw [List.mem_filter]
      refine ⟨hl, ?_⟩
      rw [decide_eq_false_iff_not.mpr (by omega : ¬ line.length < 2)]
      rfl
    · rw [List.mem_flatMap]
      refine ⟨ab, hab, ?_⟩
      unfold segmentPixels
      rw [List.mem_map]
      exact ⟨0, List.mem_range.mpr hsteps, rfl⟩
  · intro hin
    rcases h0 with h | h
    · have h1 := hin.1
      have h2' := hin.2.1
      rw [h] at h2'
      push_cast at h2'
      omega
    · have h1 := hin.2.2.1
      have h2' := hin.2.2.2
      rw [h] at h2'
      push_cast at h2'
      omega

/-- Witness for the amended C10: the moving two-point stroke `sampleW` at
raster size `0×5`. -/
theorem zero_dimension_out_of_bounds_witness :
    ((0 : ℕ) = 0 ∨ (5 : ℕ) = 0) ∧ sliderMin = 0 ∧
      ∃ q ∈ plottedPixels sampleW (0, 5), ¬ inBounds (0, 5) q :=
  ⟨Or.inl rfl,
    zero_dimension_out_of_bounds sampleW (0, 5) (Or.inl rfl)
      ⟨lineW, List.mem_singleton.mpr rfl, by norm_num [lineW],
        (⟨0, 0⟩, ⟨2, 0⟩), List.mem_singleton.mpr rfl,
        fun h => absurd (congrArg Pos2.x h) (by norm_num)⟩⟩

/-! ## C6: the drawing loop against the spec's wording -/

/-- The step count as §4.2 step 3 of the spec words it:
`steps = ceil(max(|dx|, |dy|))` with `dx = b.x - a.x`, `dy = b.y - a.y`,
computed in the original, un-normalized coordinate space. -/
def specSteps (a b : Pos2) : ℕ :=
  (⌈max |b.x - a.x| |b.y - a.y|⌉).toNat

/-- The raw point "interpolated at fraction `step/steps` along the segment"
(§4.2 step 3 of the spec). -/
def specInterpPoint (a b : Pos2) (step steps : ℕ) : Pos2 :=
  { x := a.x + (b.x - a.x) * ((step : ℚ) / (steps : ℚ))
    y := a.y + (b.y - a.y) * ((step : ℚ) / (steps : ℚ)) }

theorem specSteps_eq (a b : Pos2) : specSteps a b = pixelSteps a b := rfl

theorem specInterpPoint_eq (a b : Pos2) (step steps : ℕ) :
    specInterpPoint a b step steps = interpPoint a b step steps := by
  unfold specInterpPoint interpPoint
  simp [mul_div_assoc]

/-- **C6**: per segment the code's step count is `ceil(max(|dx|,|dy|))` in the
un-normalized source space, exactly one pixel index is computed per integer
step in `[0, steps)`, and a pixel of the output is foreground exactly when
some step of some segment plots it — the normalization-and-truncation of the
point at fraction `step/steps` along the segment. -/
theorem drawing_loop_follows_spec (lines : Sample) (size : ℕ × ℕ)
    (_hw : 1 ≤ size.1) (_hh : 1 ≤ size.2) :
    (∀ a b : Pos2, pixelSteps a b = specSteps a b) ∧
    (∀ a b : Pos2,
      (segmentPixels (computeBounds lines) size a b).length = specSteps a b) ∧
    (∀ i j : ℕ, ((save_image lines size).pix i j = true) ↔
      ∃ line ∈ lines, 2 ≤ line.length ∧ ∃ ab ∈ line.zip line.tail,
        ∃ t < specSteps ab.1 ab.2,
          (i, j) = natPixel (computeBounds lines) size
            (specInterpPoint ab.1 ab.2 t (specSteps ab.1 ab.2))) := by
  refine ⟨fun a b => rfl, ?_, ?_⟩
  · intro a b
    unfold segmentPixels
    rw [List.length_map, List.length_range]
    rfl
  · intro i j
    rw [save_image_pix]
    simp only [specInterpPoint_eq, specSteps_eq, List.mem_range]

/-- Witness for C6 on the concrete two-point sample and a `10×10` raster. -/
theorem drawing_loop_follows_spec_witness :
    (1 : ℕ) ≤ 10 ∧
    (∀ i j : ℕ, ((save_image sampleH (10, 10)).pix i j = true) ↔
      ∃ line ∈ sampleH, 2 ≤ line.length ∧ ∃ ab ∈ line.zip line.tail,
        ∃ t < specSteps ab.1 ab.2,
          (i, j) = natPixel (computeBounds sampleH) (10, 10)
            (specInterpPoint ab.1 ab.2 t (specSteps ab.1 ab.2))) :=
  ⟨by omega, (drawing_loop_follows_spec sampleH (10, 10) (by omega) (by omega)).2.2⟩
